import Mathlib

/-!
Shallow embedding of the condition-record counting engine of `src/day12.rs`
(the spring/run-length puzzle solver), together with proofs of the
specification's claims about it.

Conventions for the embedding:
* `SpringState` mirrors the Rust `enum SpringState`; a cell of a record is an
  `Option SpringState` exactly as in the source (`None` = unknown).
* The Rust `Vec` used as the backtracking stack pushes and pops at the end;
  we model the stack as a `List` whose *head* is the top of the stack.
* Machine integers (`usize`) are modelled as `Nat`; the one place where the
  64-bit bound is observable (integer parsing) carries an explicit `2 ^ 64`
  bound, and the places where `usize` subtraction could underflow are
  modelled separately by a checked variant (`maybeBacktrackChecked`).
-/

/-- Mirrors `enum SpringState { Operational, Broken }`. -/
inductive SpringState : Type
  | operational : SpringState
  | broken : SpringState
deriving DecidableEq, Repr

/-- Helper for `broken_groups`: scan with the length `k` of the currently
open run of `Broken` cells.  This is the left-to-right semantics of
`group_by(|state| *state == Broken)` followed by keeping the broken groups
and their counts. -/
def brokenGroupsAux (k : Nat) : List SpringState → List Nat
  | [] => if k = 0 then [] else [k]
  | SpringState.broken :: rest => brokenGroupsAux (k + 1) rest
  | SpringState.operational :: rest =>
      if k = 0 then brokenGroupsAux 0 rest else k :: brokenGroupsAux 0 rest

/-- Mirrors `fn broken_groups(states: &[SpringState]) -> Vec<usize>`: the
ordered list of lengths of maximal contiguous runs of `Broken`. -/
def broken_groups (states : List SpringState) : List Nat :=
  brokenGroupsAux 0 states

/-- Mirrors `fn missing_broken(a: &[usize], b: &[usize]) -> usize`, i.e.
`a.sum().abs_diff(b.sum())`, with idealised unbounded sums.  The
program's `usize` sums wrap modulo `2 ^ 64` in release builds (and panic
in debug builds) once a list's element sum reaches `2 ^ 64`; the faithful
release-build computation is `missing_broken_release` below, and the two
agree whenever both sums stay below `2 ^ 64`. -/
def missing_broken (a b : List Nat) : Nat :=
  max a.sum b.sum - min a.sum b.sum

/-- The `missing_operational` quantity of `maybe_backtrack`: each group
still missing needs to be terminated by one operational tile except the
last (`missing_groups = broken_groups.len() - candidate_groups.len()`). -/
def missingOperational (target g : List Nat) : Nat :=
  if target.length - g.length ≠ 0 then target.length - g.length - 1 else 0

/-- The `candidate_groups` of `maybe_backtrack` after the conditional
`pop()`: the last group is dropped when the candidate does not end in an
operational cell (`last_is_operational`) and the group list is nonempty,
because that last group might not be complete yet. -/
def candClosed (cand : List SpringState) : List Nat :=
  if !(cand.getLast? == some SpringState.operational) &&
      !(broken_groups cand).isEmpty
  then (broken_groups cand).dropLast
  else broken_groups cand

/-- Mirrors `SpringStateIterator::maybe_backtrack`: the decision whether a
candidate prefix is pushed back onto the backtracking stack.  The source
mutates the stack; here we return the push decision as a `Bool`.  The
capacity comparison uses the idealised `missing_broken`;
`feasiblePushRelease` below is the same decision under release-build
wrapping arithmetic, and the two coincide on every record whose target
sum stays below `2 ^ 64` — in particular on every concrete record
evaluated in this file. -/
def feasiblePush (input : List (Option SpringState)) (target : List Nat)
    (cand : List SpringState) : Bool :=
  let g := broken_groups cand
  -- Full input, everything must match.
  if cand.length = input.length then g == target
  -- More groups than the target?
  else if g.length > target.length then false
  -- Can we fit all remaining groups?
  else if missing_broken g target + missingOperational target g >
      input.length - cand.length then false
  -- Everything we found so far has to match.
  else candClosed cand == target.take (candClosed cand).length

/-- The `usize` sum `iter().sum::<usize>()` as a release build computes
it: every addition wraps modulo `2 ^ 64` (a debug build panics at the
first overflowing addition instead). -/
def wrapSum (l : List Nat) : Nat :=
  l.foldl (fun a x => (a + x) % 2 ^ 64) 0

/-- `missing_broken` as a release build computes it: `abs_diff` of the
two wrapped sums (`abs_diff` itself never overflows). -/
def missing_broken_release (a b : List Nat) : Nat :=
  max (wrapSum a) (wrapSum b) - min (wrapSum a) (wrapSum b)

/-- `maybe_backtrack`'s push decision under release-build `usize`
arithmetic: the two sums inside `missing_broken` and the addition in the
capacity comparison wrap modulo `2 ^ 64`.  All other branches (length
comparisons, the conditional `pop()`, the slice comparison) involve no
overflow-prone arithmetic and are shared with `feasiblePush`; the two
decisions differ only on records whose target sum reaches `2 ^ 64`. -/
def feasiblePushRelease (input : List (Option SpringState)) (target : List Nat)
    (cand : List SpringState) : Bool :=
  let g := broken_groups cand
  -- Full input, everything must match.
  if cand.length = input.length then g == target
  -- More groups than the target?
  else if g.length > target.length then false
  -- Can we fit all remaining groups?
  else if (missing_broken_release g target + missingOperational target g) % 2 ^ 64 >
      input.length - cand.length then false
  -- Everything we found so far has to match.
  else candClosed cand == target.take (candClosed cand).length

/-- The candidate extensions of a popped prefix `p`, in stack order (top
first).  The source pushes the `Operational` extension first and the
`Broken` extension second, so with a LIFO stack the `Broken` extension is
on top.  A resolved cell forces a single extension. -/
def extsOf (input : List (Option SpringState)) (p : List SpringState) :
    List (List SpringState) :=
  match input[p.length]? with
  | some (some s) => [p ++ [s]]
  | some none => [p ++ [SpringState.broken], p ++ [SpringState.operational]]
  | none => []

/-- The prefixes pushed onto the stack when prefix `p` is popped and is not
yet full: its surviving extensions, in stack order. -/
def newTop (input : List (Option SpringState)) (target : List Nat)
    (p : List SpringState) : List (List SpringState) :=
  if p.length = input.length then []
  else (extsOf input p).filter (feasiblePush input target)

/-- One iteration of the loop inside `SpringStateIterator::next`: pop the
top prefix; a full prefix is emitted (removed), otherwise its surviving
extensions are pushed. -/
def iterStep (input : List (Option SpringState)) (target : List Nat) :
    List (List SpringState) → List (List SpringState)
  | [] => []
  | p :: rest => newTop input target p ++ rest

/-- Fuel-indexed drain of the iterator: the list of completions emitted by
repeatedly calling `next` until the stack is empty.  With enough fuel
(`stackMeasure` below) this is exactly the sequence the Rust iterator
produces. -/
def emitAll (input : List (Option SpringState)) (target : List Nat) :
    Nat → List (List SpringState) → List (List SpringState)
  | 0, _ => []
  | _ + 1, [] => []
  | f + 1, p :: rest =>
      (if p.length = input.length then [p] else []) ++
        emitAll input target f (iterStep input target (p :: rest))

/-- Termination potential of one stack entry. -/
def potential (input : List (Option SpringState)) (p : List SpringState) : Nat :=
  3 ^ (input.length + 1 - p.length)

/-- Termination potential of a whole stack. -/
def stackMeasure (input : List (Option SpringState))
    (s : List (List SpringState)) : Nat :=
  (s.map (potential input)).sum

/-- The full run of `SpringStateIterator::new(input, target)`: every
completion it emits, in emission order.  `3 ^ (n + 1)` is the measure of
the initial stack `[[]]` and over-approximates the number of loop
iterations. -/
def runEnum (input : List (Option SpringState)) (target : List Nat) :
    List (List SpringState) :=
  emitAll input target (3 ^ (input.length + 1)) [[]]

/-- Mirrors `struct Line`. -/
structure Line : Type where
  states : List (Option SpringState)
  broken_groups : List Nat
deriving DecidableEq, Repr

/-- Mirrors `Line::solutions`: the number of completions emitted by the
iterator (the `inspect` with the debug assertion does not change the
count). -/
def Line.solutions (l : Line) : Nat :=
  (runEnum l.states l.broken_groups).length

/-- Mirrors `Line::unfold`: five copies of the cell sequence joined by
single unknown cells, and the target list repeated five times. -/
def Line.unfold (l : Line) : Line :=
  ⟨(List.replicate 5 l.states).intersperse [none] |>.flatten,
   (List.replicate 5 l.broken_groups).flatten⟩

/-- Brute-force enumeration of every resolution of the unknown cells, in
the same branch order as the backtracking iterator explores them
(`Broken` pushed last, hence explored first). -/
def resolutions : List (Option SpringState) → List (List SpringState)
  | [] => [[]]
  | some s :: rest => (resolutions rest).map (fun c => s :: c)
  | none :: rest =>
      ((resolutions rest).map (fun c => SpringState.broken :: c)) ++
        ((resolutions rest).map (fun c => SpringState.operational :: c))

/-- The brute-force reference count of §8 of the specification: enumerate
all `2 ^ u` resolutions of the unknown cells and keep those whose broken
run-length list equals the target exactly. -/
def bruteCount (l : Line) : Nat :=
  ((resolutions l.states).filter (fun c => broken_groups c == l.broken_groups)).length

/-- The groups of a sequence that are certainly closed, scanning with an
open run of length `k` carried in from the left. -/
def closedG (k : Nat) : List SpringState → List Nat
  | [] => []
  | SpringState.broken :: rest => closedG (k + 1) rest
  | SpringState.operational :: rest =>
      if k = 0 then closedG 0 rest else k :: closedG 0 rest

/-- The length of the trailing open run of `Broken` cells, scanning with an
open run of length `k` carried in from the left. -/
def openG (k : Nat) : List SpringState → Nat
  | [] => k
  | SpringState.broken :: rest => openG (k + 1) rest
  | SpringState.operational :: rest => openG 0 rest

/-- `descLexB a b` holds when at the first position where `a` and `b`
differ, `a` has `Broken` and `b` has `Operational`: the order in which the
iterator emits two completions that split at an unknown cell. -/
def descLexB : List SpringState → List SpringState → Bool
  | SpringState.broken :: _, SpringState.operational :: _ => true
  | a :: as, b :: bs => a == b && descLexB as bs
  | _, _ => false

/-- The order claimed by the specification (`Operational` before
`Broken` at the first differing position). -/
def ascLexB : List SpringState → List SpringState → Bool
  | SpringState.operational :: _, SpringState.broken :: _ => true
  | a :: as, b :: bs => a == b && ascLexB as bs
  | _, _ => false

/-! ### Parsing (`Line::from_str`, `Input::from_str`) -/

/-- `true` exactly on the error case of a `Result`. -/
def isErrB {α : Type} : Except String α → Bool
  | Except.error _ => true
  | Except.ok _ => false

/-- Mirrors `collect::<Result<Vec<_>>>()`: stop at the first error,
otherwise return all values in order. -/
def collectE {α β : Type} (f : α → Except String β) : List α → Except String (List β)
  | [] => Except.ok []
  | x :: xs =>
      match f x with
      | Except.error e => Except.error e
      | Except.ok y =>
          match collectE f xs with
          | Except.error e => Except.error e
          | Except.ok ys => Except.ok (y :: ys)

/-- Mirrors `str::split_once(c)`: split at the first occurrence of `c`,
`none` when `c` does not occur. -/
def splitOnce (c : Char) : List Char → Option (List Char × List Char)
  | [] => none
  | x :: rest =>
      if x = c then some ([], rest)
      else
        match splitOnce c rest with
        | none => none
        | some (a, b) => some (x :: a, b)

/-- The per-character match of `Line::from_str`. -/
def parseStateE (c : Char) : Except String (Option SpringState) :=
  if c = '.' then Except.ok (some SpringState.operational)
  else if c = '#' then Except.ok (some SpringState.broken)
  else if c = '?' then Except.ok none
  else Except.error "Invalid state"

/-- Numeric value of a digit string (most significant digit first). -/
def digitsVal (t : List Char) : Nat :=
  t.foldl (fun a c => a * 10 + (c.toNat - '0'.toNat)) 0

/-- Strip one leading `'+'` sign, as `usize::from_str` does. -/
def stripPlus : List Char → List Char
  | [] => []
  | c :: rest => if c = '+' then rest else c :: rest

/-- Models `str::parse::<usize>()` from the Rust standard library on a
64-bit target: an optional leading `'+'`, then at least one base-10 digit,
and the value must be below `2 ^ 64`; anything else is an error. -/
def parseUsize (t : List Char) : Option Nat :=
  let t2 := stripPlus t
  if t2.isEmpty then none
  else if t2.all Char.isDigit then
    if digitsVal t2 < 2 ^ 64 then some (digitsVal t2) else none
  else none

/-- The per-token parse of `Line::from_str` (`s.parse::<usize>()` with its
error context). -/
def parseGroupE (t : List Char) : Except String Nat :=
  match parseUsize t with
  | some n => Except.ok n
  | none => Except.error "Failed to parse integer"

/-- Mirrors `Line::from_str`. -/
def lineFromStr (s : List Char) : Except String Line :=
  match splitOnce ' ' s with
  | none => Except.error "Invalid input line"
  | some (statesStr, groupsStr) =>
      match collectE parseStateE statesStr with
      | Except.error e => Except.error e
      | Except.ok sts =>
          match collectE parseGroupE (groupsStr.splitOn ',') with
          | Except.error e => Except.error e
          | Except.ok gs => Except.ok ⟨sts, gs⟩

/-- Mirrors `struct Input`. -/
structure Input : Type where
  lines : List Line
deriving DecidableEq, Repr

/-- Strip one trailing carriage return (line terminators are `\n` or
`\r\n`). -/
def stripTrailingCR (l : List Char) : List Char :=
  if l.getLast? = some '\r' then l.dropLast else l

/-- Mirrors `str::lines()`: split at `'\n'`, drop one `'\r'` before each
split point, and do not produce a final empty line for a trailing
terminator. -/
def linesOf (s : List Char) : List (List Char) :=
  let chunks := s.splitOn '\n'
  let stripped := (chunks.dropLast).map stripTrailingCR
  match chunks.getLast? with
  | some [] => stripped
  | some lastChunk => stripped ++ [lastChunk]
  | none => stripped

/-- Mirrors `Input::from_str`. -/
def inputFromStr (s : List Char) : Except String Input :=
  match collectE lineFromStr (linesOf s) with
  | Except.error e => Except.error e
  | Except.ok ls => Except.ok ⟨ls⟩

/-- A pattern character outside the alphabet accepted by the parser. -/
def badStateChar (c : Char) : Bool :=
  !(c == '.' || c == '#' || c == '?')

/-- Token shape accepted by `usize::from_str` (64-bit). -/
def validUsizeTokenB (t : List Char) : Bool :=
  let t2 := stripPlus t
  if t2.isEmpty then false
  else if t2.all Char.isDigit then decide (digitsVal t2 < 2 ^ 64)
  else false

/-- Malformedness of one line as the code actually rejects it: no
separating space, a bad pattern character, or a run-length token that
`usize::from_str` rejects. -/
def malformedLineB (l : List Char) : Bool :=
  match splitOnce ' ' l with
  | none => true
  | some (a, b) =>
      a.any badStateChar || (b.splitOn ',').any (fun tk => !validUsizeTokenB tk)

/-- Malformedness of one line as the specification words it: no separating
space, a bad pattern character, or a run-length token that is not a plain
base-10 integer (a nonempty digit string). -/
def claimMalformedB (l : List Char) : Bool :=
  match splitOnce ' ' l with
  | none => true
  | some (a, b) =>
      a.any badStateChar ||
        (b.splitOn ',').any (fun tk => !(!tk.isEmpty && tk.all Char.isDigit))

/-! ### Checked variant of `maybe_backtrack` (panic-freedom, claim C10) -/

/-- `usize` subtraction with its panic made explicit. -/
def checkedSub (a b : Nat) : Option Nat :=
  if b ≤ a then some (a - b) else none

/-- `maybe_backtrack` with every partial operation (the two `usize`
subtractions and the slice `broken_groups[0..candidate_groups.len()]`)
made explicit: `none` marks a panic. -/
def maybeBacktrackChecked (input : List (Option SpringState)) (target : List Nat)
    (cand : List SpringState) : Option Bool :=
  let g := broken_groups cand
  if cand.length = input.length then some (g == target)
  else if g.length > target.length then some false
  else
    match checkedSub input.length cand.length, checkedSub target.length g.length with
    | some remaining, some mg =>
        let mo := if mg ≠ 0 then mg - 1 else 0
        if missing_broken g target + mo > remaining then some false
        else if (candClosed cand).length ≤ target.length then
          some (candClosed cand == target.take (candClosed cand).length)
        else none
    | _, _ => none

/-! ### The six concrete scenario records of §8 -/

/-- `???.### 1,1,3` -/
def scenario1 : Line :=
  ⟨[none, none, none, some SpringState.operational, some SpringState.broken,
    some SpringState.broken, some SpringState.broken], [1, 1, 3]⟩

/-- `.??..??...?##. 1,1,3` -/
def scenario2 : Line :=
  ⟨[some SpringState.operational, none, none, some SpringState.operational,
    some SpringState.operational, none, none, some SpringState.operational,
    some SpringState.operational, some SpringState.operational, none,
    some SpringState.broken, some SpringState.broken,
    some SpringState.operational], [1, 1, 3]⟩

/-- `?#?#?#?#?#?#?#? 1,3,1,6` -/
def scenario3 : Line :=
  ⟨[none, some SpringState.broken, none, some SpringState.broken, none,
    some SpringState.broken, none, some SpringState.broken, none,
    some SpringState.broken, none, some SpringState.broken, none,
    some SpringState.broken, none], [1, 3, 1, 6]⟩

/-- `????.#...#... 4,1,1` -/
def scenario4 : Line :=
  ⟨[none, none, none, none, some SpringState.operational,
    some SpringState.broken, some SpringState.operational,
    some SpringState.operational, some SpringState.operational,
    some SpringState.broken, some SpringState.operational,
    some SpringState.operational, some SpringState.operational], [4, 1, 1]⟩

/-- `????.######..#####. 1,6,5` -/
def scenario5 : Line :=
  ⟨[none, none, none, none, some SpringState.operational,
    some SpringState.broken, some SpringState.broken, some SpringState.broken,
    some SpringState.broken, some SpringState.broken, some SpringState.broken,
    some SpringState.operational, some SpringState.operational,
    some SpringState.broken, some SpringState.broken, some SpringState.broken,
    some SpringState.broken, some SpringState.broken,
    some SpringState.operational], [1, 6, 5]⟩

/-- `?###???????? 3,2,1` -/
def scenario6 : Line :=
  ⟨[none, some SpringState.broken, some SpringState.broken,
    some SpringState.broken, none, none, none, none, none, none, none, none],
   [3, 2, 1]⟩

/-- The pathological parse input of claim C7: a single line whose only
run-length token is the base-10 integer `2 ^ 64`, one past `usize::MAX`. -/
def overflowLineChars : List Char :=
  [' ', '1', '8', '4', '4', '6', '7', '4', '4', '0', '7', '3', '7', '0', '9',
   '5', '5', '1', '6', '1', '6']

/-! ### Stack measure: the backtracking loop terminates -/

theorem stackMeasure_nil (input : List (Option SpringState)) :
    stackMeasure input [] = 0 := rfl

theorem stackMeasure_cons (input : List (Option SpringState))
    (p : List SpringState) (s : List (List SpringState)) :
    stackMeasure input (p :: s) = potential input p + stackMeasure input s := by
  simp [stackMeasure]

theorem stackMeasure_append (input : List (Option SpringState))
    (a b : List (List SpringState)) :
    stackMeasure input (a ++ b) = stackMeasure input a + stackMeasure input b := by
  simp [stackMeasure]

theorem potential_pos (input : List (Option SpringState)) (p : List SpringState) :
    0 < potential input p :=
  Nat.pos_pow_of_pos _ (by norm_num)

theorem stackMeasure_pos (input : List (Option SpringState))
    (s : List (List SpringState)) (h : s ≠ []) : 0 < stackMeasure input s := by
  cases s with
  | nil => exact absurd rfl h
  | cons p rest =>
      have := potential_pos input p
      rw [stackMeasure_cons]
      omega

theorem stackMeasure_filter_le (input : List (Option SpringState))
    (f : List SpringState → Bool) (L : List (List SpringState)) :
    stackMeasure input (L.filter f) ≤ stackMeasure input L := by
  induction L with
  | nil => simp
  | cons p rest ih =>
      by_cases h : f p
      · simp only [List.filter_cons, h, if_pos, stackMeasure_cons]
        omega
      · simp only [List.filter_cons, h, Bool.false_eq_true, if_neg, not_false_iff,
          stackMeasure_cons]
        omega

theorem length_lt_of_getElem?_isSome (input : List (Option SpringState)) (i : Nat)
    (c : Option SpringState) (h : input[i]? = some c) : i < input.length := by
  by_contra hle
  rw [List.getElem?_eq_none (by omega)] at h
  exact Option.noConfusion h

theorem stackMeasure_newTop_lt (input : List (Option SpringState))
    (target : List Nat) (p : List SpringState) :
    stackMeasure input (newTop input target p) < potential input p := by
  unfold newTop
  by_cases hfull : p.length = input.length
  · simp [hfull, stackMeasure_nil, potential_pos]
  · simp only [hfull, if_neg, not_false_iff]
    cases hc : input[p.length]? with
    | none =>
        simp [extsOf, hc, stackMeasure_nil, potential_pos]
    | some cell =>
        have hlt : p.length < input.length :=
          length_lt_of_getElem?_isSome input p.length cell hc
        have hpot : ∀ q : List SpringState, q.length = p.length + 1 →
            potential input q = 3 ^ (input.length - p.length) := by
          intro q hq
          unfold potential
          rw [hq]
          congr 1
          omega
        have hp3 : potential input p = 3 * 3 ^ (input.length - p.length) := by
          unfold potential
          have : input.length + 1 - p.length = (input.length - p.length) + 1 := by omega
          rw [this, pow_succ, Nat.mul_comm]
        have hpos : 0 < 3 ^ (input.length - p.length) :=
          Nat.pos_pow_of_pos _ (by norm_num)
        have hfil := stackMeasure_filter_le input (feasiblePush input target)
          (extsOf input p)
        cases cell with
        | some s =>
            have hm : stackMeasure input (extsOf input p) =
                3 ^ (input.length - p.length) := by
              simp only [extsOf, hc, stackMeasure_cons, stackMeasure_nil]
              rw [hpot (p ++ [s]) (by simp)]
              omega
            omega
        | none =>
            have hm : stackMeasure input (extsOf input p) =
                3 ^ (input.length - p.length) + 3 ^ (input.length - p.length) := by
              simp only [extsOf, hc, stackMeasure_cons, stackMeasure_nil]
              rw [hpot (p ++ [SpringState.broken]) (by simp),
                hpot (p ++ [SpringState.operational]) (by simp)]
              omega
            omega

theorem stackMeasure_iterStep_lt (input : List (Option SpringState))
    (target : List Nat) (s : List (List SpringState)) (h : s ≠ []) :
    stackMeasure input (iterStep input target s) < stackMeasure input s := by
  cases s with
  | nil => exact absurd rfl h
  | cons p rest =>
      have := stackMeasure_newTop_lt input target p
      simp only [iterStep, stackMeasure_append, stackMeasure_cons]
      omega

/-! ### Fuel does not matter once it exceeds the measure -/

theorem emitAll_nil (input : List (Option SpringState)) (target : List Nat)
    (f : Nat) : emitAll input target f [] = [] := by
  cases f <;> rfl

theorem emitAll_succ_eq (input : List (Option SpringState)) (target : List Nat) :
    ∀ f s, stackMeasure input s ≤ f →
      emitAll input target (f + 1) s = emitAll input target f s := by
  intro f
  induction f with
  | zero =>
      intro s hs
      cases s with
      | nil => rfl
      | cons p rest =>
          have := stackMeasure_pos input (p :: rest) (by simp)
          omega
  | succ f ih =>
      intro s hs
      cases s with
      | nil => rfl
      | cons p rest =>
          have hlt := stackMeasure_iterStep_lt input target (p :: rest) (by simp)
          simp only [emitAll]
          congr 1
          exact ih (iterStep input target (p :: rest)) (by omega)

theorem emitAll_fuel_eq (input : List (Option SpringState)) (target : List Nat) :
    ∀ f2 f1 s, stackMeasure input s ≤ f1 → f1 ≤ f2 →
      emitAll input target f2 s = emitAll input target f1 s := by
  intro f2
  induction f2 with
  | zero =>
      intro f1 s h1 h2
      have : f1 = 0 := by omega
      rw [this]
  | succ f2 ih =>
      intro f1 s h1 h2
      by_cases hf : f1 = f2 + 1
      · rw [hf]
      · have h2' : f1 ≤ f2 := by omega
        rw [emitAll_succ_eq input target f2 s (by omega)]
        exact ih f1 s h1 h2'

theorem emitAll_append (input : List (Option SpringState)) (target : List Nat) :
    ∀ f xs ys, stackMeasure input (xs ++ ys) ≤ f →
      emitAll input target f (xs ++ ys) =
        emitAll input target f xs ++ emitAll input target f ys := by
  intro f
  induction f with
  | zero => intro xs ys _; simp [emitAll]
  | succ f ih =>
      intro xs ys h
      cases xs with
      | nil => simp [emitAll_nil]
      | cons p xs' =>
          have hmeas : stackMeasure input ((p :: xs') ++ ys) =
              potential input p + stackMeasure input xs' + stackMeasure input ys := by
            rw [stackMeasure_append, stackMeasure_cons]
          have hpos := potential_pos input p
          have hnewlt := stackMeasure_newTop_lt input target p
          have hstep : iterStep input target ((p :: xs') ++ ys) =
              (newTop input target p ++ xs') ++ ys := by
            simp [iterStep, List.append_assoc]
          have hstep' : iterStep input target (p :: xs') =
              newTop input target p ++ xs' := rfl
          have hm2 : stackMeasure input ((newTop input target p ++ xs') ++ ys) ≤ f := by
            rw [stackMeasure_append, stackMeasure_append]
            omega
          have hys : stackMeasure input ys ≤ f := by omega
          calc emitAll input target (f + 1) ((p :: xs') ++ ys)
              = (if p.length = input.length then [p] else []) ++
                  emitAll input target f ((newTop input target p ++ xs') ++ ys) := by
                rw [List.cons_append]
                simp only [emitAll]
                rw [show iterStep input target (p :: (xs' ++ ys)) =
                    (newTop input target p ++ xs') ++ ys from hstep]
            _ = (if p.length = input.length then [p] else []) ++
                  (emitAll input target f (newTop input target p ++ xs') ++
                    emitAll input target f ys) := by
                rw [ih (newTop input target p ++ xs') ys hm2]
            _ = ((if p.length = input.length then [p] else []) ++
                  emitAll input target f (newTop input target p ++ xs')) ++
                    emitAll input target f ys := by
                rw [List.append_assoc]
            _ = emitAll input target (f + 1) (p :: xs') ++
                  emitAll input target f ys := by
                simp only [emitAll, hstep']
            _ = emitAll input target (f + 1) (p :: xs') ++
                  emitAll input target (f + 1) ys := by
                rw [emitAll_succ_eq input target f ys hys]

/-! ### Structure of `broken_groups` over a prefix/suffix split -/

theorem brokenGroupsAux_eq_closed_open (l : List SpringState) :
    ∀ k, brokenGroupsAux k l =
      closedG k l ++ (if openG k l = 0 then [] else [openG k l]) := by
  induction l with
  | nil =>
      intro k
      by_cases hk : k = 0 <;> simp [brokenGroupsAux, closedG, openG, hk]
  | cons x rest ih =>
      intro k
      cases x with
      | broken => simpa [brokenGroupsAux, closedG, openG] using ih (k + 1)
      | operational =>
          by_cases hk : k = 0 <;>
            simp [brokenGroupsAux, closedG, openG, hk, ih 0]

theorem brokenGroupsAux_append (a : List SpringState) :
    ∀ k (b : List SpringState),
      brokenGroupsAux k (a ++ b) = closedG k a ++ brokenGroupsAux (openG k a) b := by
  induction a with
  | nil => intro k b; simp [closedG, openG]
  | cons x rest ih =>
      intro k b
      cases x with
      | broken => simpa [brokenGroupsAux, closedG, openG] using ih (k + 1) b
      | operational =>
          by_cases hk : k = 0 <;>
            simp [brokenGroupsAux, closedG, openG, hk, ih 0 b]

theorem brokenGroupsAux_sum (l : List SpringState) :
    ∀ k, (brokenGroupsAux k l).sum = k + l.count SpringState.broken := by
  induction l with
  | nil =>
      intro k
      by_cases hk : k = 0 <;> simp [brokenGroupsAux, hk]
  | cons x rest ih =>
      intro k
      cases x with
      | broken =>
          have := ih (k + 1)
          simp only [brokenGroupsAux, List.count_cons]
          simp only [this]
          simp
          omega
      | operational =>
          have := ih 0
          by_cases hk : k = 0 <;>
            simp [brokenGroupsAux, List.count_cons, hk, this]

theorem brokenGroupsAux_length_le (l : List SpringState) :
    ∀ k, (brokenGroupsAux k l).length ≤ l.count SpringState.operational + 1 := by
  induction l with
  | nil =>
      intro k
      by_cases hk : k = 0 <;> simp [brokenGroupsAux, hk]
  | cons x rest ih =>
      intro k
      cases x with
      | broken =>
          have := ih (k + 1)
          simp only [brokenGroupsAux, List.count_cons]
          simpa using this
      | operational =>
          have := ih 0
          by_cases hk : k = 0 <;>
            · simp only [brokenGroupsAux, List.count_cons, hk]
              simp
              omega

theorem brokenGroupsAux_ne_nil (l : List SpringState) :
    ∀ k, k ≠ 0 → brokenGroupsAux k l ≠ [] := by
  induction l with
  | nil => intro k hk; simp [brokenGroupsAux, hk]
  | cons x rest ih =>
      intro k hk
      cases x with
      | broken => exact ih (k + 1) (by omega)
      | operational => simp [brokenGroupsAux, hk]

theorem count_broken_add_count_operational (l : List SpringState) :
    l.count SpringState.broken + l.count SpringState.operational = l.length := by
  induction l with
  | nil => simp
  | cons x rest ih =>
      cases x <;> simp [List.count_cons] <;> omega

theorem openG_of_getLast_operational (l : List SpringState) :
    ∀ k, l.getLast? = some SpringState.operational → openG k l = 0 := by
  induction l with
  | nil => intro k h; simp at h
  | cons x rest ih =>
      intro k h
      cases rest with
      | nil =>
          simp only [List.getLast?_singleton, Option.some_inj] at h
          subst h
          simp [openG]
      | cons y rest' =>
          rw [List.getLast?_cons_cons] at h
          cases x with
          | broken => exact ih (k + 1) h
          | operational => exact ih 0 h

theorem openG_eq_zero_cases (l : List SpringState) :
    ∀ k, openG k l = 0 →
      (l = [] ∧ k = 0) ∨ l.getLast? = some SpringState.operational := by
  induction l with
  | nil => intro k h; exact Or.inl ⟨rfl, h⟩
  | cons x rest ih =>
      intro k h
      cases x with
      | broken =>
          rcases ih (k + 1) (by simpa [openG] using h) with ⟨hnil, hk⟩ | hlast
          · omega
          · right
            cases rest with
            | nil => simp at hlast
            | cons y rest' => rw [List.getLast?_cons_cons]; exact hlast
      | operational =>
          rcases ih 0 (by simpa [openG] using h) with ⟨hnil, _⟩ | hlast
          · subst hnil
            right
            simp
          · right
            cases rest with
            | nil => simp at hlast
            | cons y rest' => rw [List.getLast?_cons_cons]; exact hlast

/-- The `candidate_groups` left after the conditional `pop()` are exactly
the certainly-closed groups of the candidate. -/
theorem candClosed_eq_closedG (cand : List SpringState) :
    candClosed cand = closedG 0 cand := by
  unfold candClosed
  have hA := brokenGroupsAux_eq_closed_open cand 0
  by_cases hlast : cand.getLast? = some SpringState.operational
  · have hj : openG 0 cand = 0 := openG_of_getLast_operational cand 0 hlast
    simp only [hlast, beq_self_eq_true, Bool.not_true, Bool.false_and, Bool.false_eq_true,
      if_neg, not_false_iff]
    rw [broken_groups, hA, hj]
    simp
  · by_cases hg : broken_groups cand = []
    · have : (broken_groups cand).isEmpty = true := by
        rw [hg]; rfl
      simp only [this, Bool.not_true, Bool.and_false, Bool.false_eq_true, if_neg,
        not_false_iff]
      rw [hg]
      rw [broken_groups, hA] at hg
      rcases List.append_eq_nil.mp hg with ⟨hc, _⟩
      exact hc.symm
    · have hj : openG 0 cand ≠ 0 := by
        intro hj0
        rcases openG_eq_zero_cases cand 0 hj0 with ⟨hnil, _⟩ | hlast'
        · rw [hnil] at hg
          exact hg rfl
        · exact hlast hlast'
      have hbeq : (cand.getLast? == some SpringState.operational) = false := by
        rw [beq_eq_false_iff_ne]
        exact hlast
      have hemp : (broken_groups cand).isEmpty = false := by
        rw [List.isEmpty_eq_false_iff_exists_mem]
        rcases List.exists_mem_of_ne_nil _ hg with ⟨a, ha⟩
        exact ⟨a, ha⟩
      simp only [hbeq, hemp, Bool.not_false, Bool.and_self, if_pos]
      rw [broken_groups, hA, if_neg hj, List.dropLast_concat]

/-! ### Soundness of the pruning predicate -/

theorem feasiblePush_true_of (input : List (Option SpringState)) (target : List Nat)
    (cand : List SpringState)
    (hne : ¬ cand.length = input.length)
    (hlen : ¬ (broken_groups cand).length > target.length)
    (hcap : ¬ (missing_broken (broken_groups cand) target +
      missingOperational target (broken_groups cand) >
        input.length - cand.length))
    (hpre : candClosed cand = target.take (candClosed cand).length) :
    feasiblePush input target cand = true := by
  simp only [feasiblePush]
  rw [if_neg hne, if_neg hlen, if_neg hcap]
  exact beq_iff_eq.mpr hpre

theorem feasiblePush_full (input : List (Option SpringState)) (target : List Nat)
    (cand : List SpringState) (h : cand.length = input.length) :
    feasiblePush input target cand = (broken_groups cand == target) := by
  simp only [feasiblePush]
  rw [if_pos h]

/-- If a strict prefix `q` extends to a full completion whose broken groups
are exactly the target, then `maybe_backtrack` pushes `q`. -/
theorem feasiblePush_of_extension (input : List (Option SpringState))
    (target : List Nat) (q s : List SpringState)
    (hlt : q.length < input.length)
    (hlen : q.length + s.length = input.length)
    (hbg : broken_groups (q ++ s) = target) :
    feasiblePush input target q = true := by
  have ht : target = closedG 0 q ++ brokenGroupsAux (openG 0 q) s := by
    rw [← hbg]
    exact brokenGroupsAux_append q 0 s
  have hg : broken_groups q =
      closedG 0 q ++ (if openG 0 q = 0 then [] else [openG 0 q]) :=
    brokenGroupsAux_eq_closed_open q 0
  have hsumLS : (brokenGroupsAux (openG 0 q) s).sum =
      openG 0 q + s.count SpringState.broken := brokenGroupsAux_sum s (openG 0 q)
  have hlenLS : (brokenGroupsAux (openG 0 q) s).length ≤
      s.count SpringState.operational + 1 := brokenGroupsAux_length_le s (openG 0 q)
  have hcnt := count_broken_add_count_operational s
  have htlen : target.length =
      (closedG 0 q).length + (brokenGroupsAux (openG 0 q) s).length := by
    rw [ht]; simp
  have htsum : target.sum =
      (closedG 0 q).sum + (brokenGroupsAux (openG 0 q) s).sum := by
    rw [ht]; simp
  apply feasiblePush_true_of
  · omega
  · by_cases hj0 : openG 0 q = 0
    · have hglen : (broken_groups q).length = (closedG 0 q).length := by
        rw [hg, if_pos hj0]; simp
      omega
    · have hglen : (broken_groups q).length = (closedG 0 q).length + 1 := by
        rw [hg, if_neg hj0]; simp
      have hLpos : 0 < (brokenGroupsAux (openG 0 q) s).length :=
        List.length_pos.mpr (brokenGroupsAux_ne_nil s (openG 0 q) hj0)
      omega
  · by_cases hj0 : openG 0 q = 0
    · have hgsum : (broken_groups q).sum = (closedG 0 q).sum := by
        rw [hg, if_pos hj0]; simp
      have hglen : (broken_groups q).length = (closedG 0 q).length := by
        rw [hg, if_pos hj0]; simp
      unfold missing_broken missingOperational
      split_ifs with hmg <;> omega
    · have hgsum : (broken_groups q).sum = (closedG 0 q).sum + openG 0 q := by
        rw [hg, if_neg hj0]; simp
      have hglen : (broken_groups q).length = (closedG 0 q).length + 1 := by
        rw [hg, if_neg hj0]; simp
      have hLpos : 0 < (brokenGroupsAux (openG 0 q) s).length :=
        List.length_pos.mpr (brokenGroupsAux_ne_nil s (openG 0 q) hj0)
      unfold missing_broken missingOperational
      split_ifs with hmg <;> omega
  · rw [candClosed_eq_closedG, ht]
    exact (List.take_left (closedG 0 q) (brokenGroupsAux (openG 0 q) s)).symm

/-- Contrapositive form: a pruned strict prefix has no valid completion. -/
theorem no_valid_completion_of_pruned (input : List (Option SpringState))
    (target : List Nat) (q : List SpringState)
    (hlt : q.length < input.length)
    (hfail : feasiblePush input target q = false) :
    ∀ s : List SpringState, q.length + s.length = input.length →
      broken_groups (q ++ s) ≠ target := by
  intro s hs hbg
  have := feasiblePush_of_extension input target q s hlt hs hbg
  rw [hfail] at this
  exact Bool.noConfusion this

/-! ### The enumerator emits exactly the valid completions -/

theorem mem_resolutions_length (l : List (Option SpringState)) :
    ∀ c ∈ resolutions l, c.length = l.length := by
  induction l with
  | nil =>
      intro c hc
      simp only [resolutions, List.mem_singleton] at hc
      simp [hc]
  | cons x rest ih =>
      intro c hc
      cases x with
      | some s =>
          simp only [resolutions, List.mem_map] at hc
          rcases hc with ⟨c', hc', rfl⟩
          simp [ih c' hc']
      | none =>
          simp only [resolutions, List.mem_append, List.mem_map] at hc
          rcases hc with ⟨c', hc', rfl⟩ | ⟨c', hc', rfl⟩ <;> simp [ih c' hc']

theorem stackMeasure_singleton (input : List (Option SpringState))
    (p : List SpringState) : stackMeasure input [p] = potential input p := by
  simp [stackMeasure]

/-- Characterisation of the backtracking enumerator: starting from any
strict prefix `p` of the input, the drained iterator emits exactly the
completions of `p` whose broken groups equal the target, in the
depth-first branch order (`Broken` branch first). -/
theorem emitAll_eq_filter (input : List (Option SpringState)) (target : List Nat) :
    ∀ k p f, input.length - p.length = k → p.length < input.length →
      stackMeasure input [p] ≤ f →
      emitAll input target f [p] =
        ((resolutions (input.drop p.length)).map (fun c => p ++ c)).filter
          (fun c => broken_groups c == target) := by
  intro k
  induction k with
  | zero => intro p f hk hlt _; omega
  | succ k ih =>
      intro p f hk hlt hf
      have hMpos : 0 < 3 ^ (input.length - p.length) :=
        Nat.pos_pow_of_pos _ (by norm_num)
      have hpotp : potential input p = 3 * 3 ^ (input.length - p.length) := by
        unfold potential
        have he : input.length + 1 - p.length = (input.length - p.length) + 1 := by
          omega
        rw [he, pow_succ, Nat.mul_comm]
      have hfM : 3 * 3 ^ (input.length - p.length) ≤ f := by
        rw [stackMeasure_singleton, hpotp] at hf
        exact hf
      cases f with
      | zero => omega
      | succ f' =>
      have hf' : 2 * 3 ^ (input.length - p.length) ≤ f' := by omega
      have hne : ¬ p.length = input.length := by omega
      have hstep : emitAll input target (f' + 1) [p] =
          emitAll input target f'
            ((extsOf input p).filter (feasiblePush input target)) := by
        simp only [emitAll, iterStep, newTop]
        rw [if_neg hne, if_neg hne, List.append_nil, List.nil_append]
      have hpotq : ∀ q : List SpringState, q.length = p.length + 1 →
          stackMeasure input [q] = 3 ^ (input.length - p.length) := by
        intro q hq
        rw [stackMeasure_singleton]
        unfold potential
        rw [hq]
        congr 1
        omega
      have child : ∀ q : List SpringState, q.length = p.length + 1 →
          emitAll input target f' (List.filter (feasiblePush input target) [q]) =
            ((resolutions (input.drop q.length)).map (fun c => q ++ c)).filter
              (fun c => broken_groups c == target) := by
        intro q hq
        by_cases hfull : q.length = input.length
        · have hdropq : input.drop q.length = [] := by
            rw [hfull, List.drop_length]
          rw [hdropq]
          simp only [resolutions, List.map_cons, List.map_nil, List.append_nil]
          by_cases hval : broken_groups q = target
          · have hfeas : feasiblePush input target q = true := by
              rw [feasiblePush_full input target q hfull]
              exact beq_iff_eq.mpr hval
            have hfq : List.filter (feasiblePush input target) [q] = [q] := by
              simp [hfeas]
            rw [hfq]
            have hvq : (broken_groups q == target) = true := beq_iff_eq.mpr hval
            cases f' with
            | zero => omega
            | succ f'' =>
                simp only [emitAll, iterStep, newTop]
                rw [if_pos hfull, if_pos hfull, List.nil_append, emitAll_nil,
                  List.filter_cons, hvq]
                simp
          · have hfeas : feasiblePush input target q = false := by
              rw [feasiblePush_full input target q hfull]
              exact beq_eq_false_iff_ne.mpr hval
            have hfq : List.filter (feasiblePush input target) [q] = [] := by
              simp [hfeas]
            have hvq : (broken_groups q == target) = false :=
              beq_eq_false_iff_ne.mpr hval
            rw [hfq, emitAll_nil, List.filter_cons, hvq]
            simp
        · have hlt' : q.length < input.length := by omega
          by_cases hfeas : feasiblePush input target q = true
          · have hfq : List.filter (feasiblePush input target) [q] = [q] := by
              simp [hfeas]
            rw [hfq]
            refine ih q f' (by omega) hlt' ?_
            rw [hpotq q hq]
            omega
          · have hfeas' : feasiblePush input target q = false :=
              Bool.eq_false_iff.mpr hfeas
            have hfq : List.filter (feasiblePush input target) [q] = [] := by
              simp [hfeas']
            rw [hfq, emitAll_nil]
            symm
            rw [List.filter_eq_nil_iff]
            intro c hc
            rw [List.mem_map] at hc
            rcases hc with ⟨s, hs, rfl⟩
            have hslen : s.length = input.length - q.length := by
              have hh := mem_resolutions_length (input.drop q.length) s hs
              rw [List.length_drop] at hh
              exact hh
            have hnv := no_valid_completion_of_pruned input target q hlt' hfeas' s
              (by omega)
            simp only [beq_iff_eq, Bool.not_eq_true]
            exact hnv
      rw [hstep]
      have hsome : input[p.length]? = some input[p.length] :=
        List.getElem?_eq_getElem hlt
      have hdrop : input.drop p.length = input[p.length] :: input.drop (p.length + 1) :=
        List.drop_eq_getElem_cons hlt
      cases hcv : input[p.length] with
      | some s1 =>
          rw [hcv] at hsome hdrop
          have hext : extsOf input p = [p ++ [s1]] := by
            unfold extsOf
            rw [hsome]
          rw [hext, child (p ++ [s1]) (by simp), hdrop]
          simp only [resolutions, List.map_map, List.length_append,
            List.length_singleton]
          have hfun : (fun c => p ++ [s1] ++ c) =
              ((fun c => p ++ c) ∘ fun c => s1 :: c) := by
            funext c
            simp
          rw [hfun]
      | none =>
          rw [hcv] at hsome hdrop
          have hext : extsOf input p =
              [p ++ [SpringState.broken], p ++ [SpringState.operational]] := by
            unfold extsOf
            rw [hsome]
          rw [hext]
          rw [show [p ++ [SpringState.broken], p ++ [SpringState.operational]] =
            [p ++ [SpringState.broken]] ++ [p ++ [SpringState.operational]] from rfl,
            List.filter_append]
          have hmB := stackMeasure_filter_le input (feasiblePush input target)
            [p ++ [SpringState.broken]]
          have hmO := stackMeasure_filter_le input (feasiblePush input target)
            [p ++ [SpringState.operational]]
          rw [hpotq (p ++ [SpringState.broken]) (by simp)] at hmB
          rw [hpotq (p ++ [SpringState.operational]) (by simp)] at hmO
          rw [emitAll_append input target f' _ _ (by
            rw [stackMeasure_append]
            omega)]
          rw [child (p ++ [SpringState.broken]) (by simp),
            child (p ++ [SpringState.operational]) (by simp), hdrop]
          simp only [resolutions, List.map_append, List.map_map, List.filter_append,
            List.length_append, List.length_singleton]
          have hfunB : (fun c => p ++ [SpringState.broken] ++ c) =
              ((fun c => p ++ c) ∘ fun c => SpringState.broken :: c) := by
            funext c
            simp
          have hfunO : (fun c => p ++ [SpringState.operational] ++ c) =
              ((fun c => p ++ c) ∘ fun c => SpringState.operational :: c) := by
            funext c
            simp
          rw [hfunB, hfunO]

/-- Top-level form: on a nonempty record the full run of the iterator is
exactly the brute-force enumeration filtered by the exact run-length
match. -/
theorem runEnum_eq_filter (input : List (Option SpringState)) (target : List Nat)
    (h : input ≠ []) :
    runEnum input target =
      (resolutions input).filter (fun c => broken_groups c == target) := by
  have hlen : 0 < input.length := List.length_pos.mpr h
  have hmain := emitAll_eq_filter input target (input.length - 0) []
    (3 ^ (input.length + 1)) (by simp) (by simpa using hlen)
    (by
      rw [stackMeasure_singleton]
      unfold potential
      simp)
  unfold runEnum
  rw [hmain]
  simp

/-- On the empty record the iterator emits the empty completion without
any feasibility check. -/
theorem runEnum_nil (target : List Nat) : runEnum [] target = [[]] := rfl

/-- General equivalence with the brute-force count, valid for every record
with a nonempty cell sequence (see `c1_bug_eval` for the empty-record
divergence). -/
theorem solutions_eq_bruteCount (l : Line) (h : l.states ≠ []) :
    l.solutions = bruteCount l := by
  unfold Line.solutions bruteCount
  rw [runEnum_eq_filter l.states l.broken_groups h]

/-- The brute-force enumeration ranges over exactly `2 ^ u` resolutions,
`u` the number of unknown cells. -/
theorem resolutions_length (l : List (Option SpringState)) :
    (resolutions l).length = 2 ^ l.count none := by
  induction l with
  | nil => simp [resolutions]
  | cons x rest ih =>
      cases x with
      | some s => simp [resolutions, List.count_cons, ih]
      | none =>
          simp [resolutions, List.count_cons, ih, pow_succ]
          omega

/-- No resolution is enumerated twice. -/
theorem resolutions_nodup (l : List (Option SpringState)) :
    (resolutions l).Nodup := by
  induction l with
  | nil => simp [resolutions]
  | cons x rest ih =>
      cases x with
      | some s =>
          simp only [resolutions]
          exact ih.map (fun a b h => by injection h)
      | none =>
          simp only [resolutions]
          refine List.Nodup.append (ih.map (fun a b h => by injection h))
            (ih.map (fun a b h => by injection h)) ?_
          intro c hc1 hc2
          rw [List.mem_map] at hc1 hc2
          rcases hc1 with ⟨a, _, rfl⟩
          rcases hc2 with ⟨b, _, hb⟩
          injection hb with hhead _
          exact SpringState.noConfusion hhead

/-- A resolution agrees with the input on every already-resolved cell. -/
theorem mem_resolutions_agrees (l : List (Option SpringState)) :
    ∀ r ∈ resolutions l, ∀ (i : Nat) (s : SpringState),
      l[i]? = some (some s) → r[i]? = some s := by
  induction l with
  | nil => intro r hr i s h; simp at h
  | cons x rest ih =>
      intro r hr i s h
      cases x with
      | some s0 =>
          simp only [resolutions, List.mem_map] at hr
          rcases hr with ⟨r', hr', rfl⟩
          cases i with
          | zero =>
              simp only [List.getElem?_cons_zero, Option.some_inj] at h
              rw [← h]
              simp
          | succ i =>
              simp only [List.getElem?_cons_succ] at h ⊢
              exact ih r' hr' i s h
      | none =>
          simp only [resolutions, List.mem_append, List.mem_map] at hr
          rcases hr with ⟨r', hr', rfl⟩ | ⟨r', hr', rfl⟩ <;>
          · cases i with
            | zero => simp at h
            | succ i =>
                simp only [List.getElem?_cons_succ] at h ⊢
                exact ih r' hr' i s h

/-! ### Emission order -/

theorem descLexB_cons_same (x : SpringState) (a b : List SpringState) :
    descLexB (x :: a) (x :: b) = descLexB a b := by
  cases x <;> simp [descLexB]

theorem descLexB_broken_operational (a b : List SpringState) :
    descLexB (SpringState.broken :: a) (SpringState.operational :: b) = true := rfl

/-- The brute-force enumeration is emitted in strictly descending
lexicographic order (`Broken` branch first). -/
theorem resolutions_pairwise (l : List (Option SpringState)) :
    (resolutions l).Pairwise (fun a b => descLexB a b = true) := by
  induction l with
  | nil => simp [resolutions]
  | cons x rest ih =>
      cases x with
      | some s =>
          simp only [resolutions]
          rw [List.pairwise_map]
          exact ih.imp (by
            intro a b h
            rw [descLexB_cons_same]
            exact h)
      | none =>
          simp only [resolutions]
          rw [List.pairwise_append]
          refine ⟨?_, ?_, ?_⟩
          · rw [List.pairwise_map]
            exact ih.imp (by
              intro a b h
              rw [descLexB_cons_same]
              exact h)
          · rw [List.pairwise_map]
            exact ih.imp (by
              intro a b h
              rw [descLexB_cons_same]
              exact h)
          · intro a ha b hb
            rw [List.mem_map] at ha hb
            rcases ha with ⟨a', _, rfl⟩
            rcases hb with ⟨b', _, rfl⟩
            exact descLexB_broken_operational a' b'

/-! ### The backtracking loop reaches the empty stack -/

theorem iterStep_reaches_nil (input : List (Option SpringState)) (target : List Nat) :
    ∀ s : List (List SpringState), ∃ k, (iterStep input target)^[k] s = [] := by
  have H : ∀ m s, stackMeasure input s ≤ m →
      ∃ k, (iterStep input target)^[k] s = [] := by
    intro m
    induction m with
    | zero =>
        intro s hs
        cases s with
        | nil => exact ⟨0, rfl⟩
        | cons p r =>
            have := stackMeasure_pos input (p :: r) (by simp)
            omega
    | succ m ihm =>
        intro s hs
        cases s with
        | nil => exact ⟨0, rfl⟩
        | cons p r =>
            have hlt := stackMeasure_iterStep_lt input target (p :: r) (by simp)
            rcases ihm (iterStep input target (p :: r)) (by omega) with ⟨k, hk⟩
            exact ⟨k + 1, by rw [Function.iterate_succ_apply]; exact hk⟩
  exact fun s => H (stackMeasure input s) s le_rfl

/-! ### Parser lemmas -/

theorem parseStateE_isErr (c : Char) : isErrB (parseStateE c) = badStateChar c := by
  by_cases h1 : c = '.' <;> by_cases h2 : c = '#' <;> by_cases h3 : c = '?' <;>
    simp [parseStateE, badStateChar, isErrB, h1, h2, h3]

theorem collectE_isErr {α β : Type} (f : α → Except String β) (P : α → Bool)
    (hf : ∀ a, isErrB (f a) = P a) :
    ∀ l : List α, isErrB (collectE f l) = l.any P := by
  intro l
  induction l with
  | nil => simp [collectE, isErrB]
  | cons x xs ih =>
      cases hx : f x with
      | error e =>
          have h := hf x
          rw [hx] at h
          have hPx : P x = true := h.symm
          simp [collectE, hx, isErrB, hPx]
      | ok y =>
          have h := hf x
          rw [hx] at h
          have hPx : P x = false := h.symm
          cases hxs : collectE f xs with
          | error e =>
              have h2 := ih
              rw [hxs] at h2
              have hany : xs.any P = true := h2.symm
              simp [collectE, hx, hxs, isErrB, hPx, hany]
          | ok ys =>
              have h2 := ih
              rw [hxs] at h2
              have hany : xs.any P = false := h2.symm
              simp [collectE, hx, hxs, isErrB, hPx, hany]

theorem parseUsize_isSome (t : List Char) :
    (parseUsize t).isSome = validUsizeTokenB t := by
  simp only [parseUsize, validUsizeTokenB]
  split_ifs <;> simp_all

theorem parseGroupE_isErr (t : List Char) :
    isErrB (parseGroupE t) = !validUsizeTokenB t := by
  unfold parseGroupE
  cases h : parseUsize t with
  | none =>
      have := parseUsize_isSome t
      rw [h] at this
      simp only [Option.isSome_none] at this
      simp [isErrB, ← this]
  | some n =>
      have := parseUsize_isSome t
      rw [h] at this
      simp only [Option.isSome_some] at this
      simp [isErrB, ← this]

theorem parseUsize_lt (t : List Char) (n : Nat) (h : parseUsize t = some n) :
    n < 2 ^ 64 := by
  simp only [parseUsize] at h
  split_ifs at h with h1 h2 h3
  injection h with h'
  omega

theorem parseGroupE_ok_lt (t : List Char) (n : Nat)
    (h : parseGroupE t = Except.ok n) : n < 2 ^ 64 := by
  unfold parseGroupE at h
  cases hu : parseUsize t with
  | none => rw [hu] at h; exact Except.noConfusion h
  | some m =>
      rw [hu] at h
      injection h with h'
      rw [← h']
      exact parseUsize_lt t m hu

theorem lineFromStr_isErr (l : List Char) :
    isErrB (lineFromStr l) = malformedLineB l := by
  unfold lineFromStr malformedLineB
  cases hsp : splitOnce ' ' l with
  | none => simp [isErrB]
  | some ab =>
      obtain ⟨a, b⟩ := ab
      have hst := collectE_isErr parseStateE badStateChar parseStateE_isErr a
      have hgr := collectE_isErr parseGroupE (fun tk => !validUsizeTokenB tk)
        parseGroupE_isErr (b.splitOn ',')
      cases hs : collectE parseStateE a with
      | error e =>
          rw [hs] at hst
          have hA : a.any badStateChar = true := hst.symm
          simp only [hs]
          simp [isErrB, hA]
      | ok sts =>
          rw [hs] at hst
          have hA : a.any badStateChar = false := hst.symm
          cases hg : collectE parseGroupE (b.splitOn ',') with
          | error e =>
              rw [hg] at hgr
              have hG : ((b.splitOn ',').any fun tk => !validUsizeTokenB tk) = true :=
                hgr.symm
              simp only [hs, hg]
              simp [isErrB, hA, hG]
          | ok gs =>
              rw [hg] at hgr
              have hG : ((b.splitOn ',').any fun tk => !validUsizeTokenB tk) = false :=
                hgr.symm
              simp only [hs, hg]
              simp [isErrB, hA, hG]

theorem inputFromStr_isErr (s : List Char) :
    isErrB (inputFromStr s) = (linesOf s).any malformedLineB := by
  unfold inputFromStr
  have h := collectE_isErr lineFromStr malformedLineB lineFromStr_isErr (linesOf s)
  cases hc : collectE lineFromStr (linesOf s) with
  | error e =>
      rw [hc] at h
      have hA : (linesOf s).any malformedLineB = true := h.symm
      simp only [hc]
      simp [isErrB, hA]
  | ok ls =>
      rw [hc] at h
      have hA : (linesOf s).any malformedLineB = false := h.symm
      simp only [hc]
      simp [isErrB, hA]

theorem collectE_ok_length {α β : Type} (f : α → Except String β) :
    ∀ (l : List α) (ys : List β), collectE f l = Except.ok ys →
      ys.length = l.length := by
  intro l
  induction l with
  | nil =>
      intro ys h
      simp only [collectE] at h
      injection h with h'
      rw [← h']
      rfl
  | cons x xs ih =>
      intro ys h
      simp only [collectE] at h
      cases hx : f x with
      | error e => rw [hx] at h; exact Except.noConfusion h
      | ok y =>
          rw [hx] at h
          cases hxs : collectE f xs with
          | error e => rw [hxs] at h; exact Except.noConfusion h
          | ok ys' =>
              rw [hxs] at h
              injection h with h'
              rw [← h']
              simp [ih ys' hxs]

theorem collectE_ok_mem {α β : Type} (f : α → Except String β) :
    ∀ (l : List α) (ys : List β), collectE f l = Except.ok ys →
      ∀ y ∈ ys, ∃ x ∈ l, f x = Except.ok y := by
  intro l
  induction l with
  | nil =>
      intro ys h y hy
      simp only [collectE] at h
      injection h with h'
      rw [← h'] at hy
      simp at hy
  | cons x xs ih =>
      intro ys h y hy
      simp only [collectE] at h
      cases hx : f x with
      | error e => rw [hx] at h; exact Except.noConfusion h
      | ok y0 =>
          rw [hx] at h
          cases hxs : collectE f xs with
          | error e => rw [hxs] at h; exact Except.noConfusion h
          | ok ys' =>
              rw [hxs] at h
              injection h with h'
              rw [← h'] at hy
              rcases List.mem_cons.mp hy with rfl | hy'
              · exact ⟨x, List.mem_cons_self x xs, hx⟩
              · rcases ih ys' hxs y hy' with ⟨x', hx', hfx'⟩
                exact ⟨x', List.mem_cons_of_mem x hx', hfx'⟩

/-! ### The claims -/

set_option maxRecDepth 10000

/-- Claim C1 (code bug, evaluation at the failing input): on the record
with an empty cell sequence and target list `[1]`, `Line::solutions`
returns 1 — the iterator emits the empty completion without any check —
while exhaustive enumeration of the `2 ^ 0 = 1` resolutions filtered by
exact run-length match yields 0.  (For every record with a nonempty cell
sequence the claimed equality does hold: `solutions_eq_bruteCount`.) -/
theorem c1_empty_record_eval :
    Line.solutions ⟨[], [1]⟩ = 1 ∧ bruteCount ⟨[], [1]⟩ = 0 := by decide

/-- Claim C2 (code bug, evaluation at the failing input): on the record
with an empty cell sequence and target list `[1]` the enumerator emits the
empty completion, whose broken run-length list `[]` differs from the
target `[1]` — exactly the situation the debug assertion in
`Line::solutions` rejects, so the assertion fires on this record. -/
theorem c2_assertion_fires_eval :
    runEnum [] [1] = [[]] ∧ broken_groups [] ≠ [1] := by decide

/-- Idealised-arithmetic form of the capacity prune: with unbounded exact
sums (`missing_broken`), a strict prefix is rejected whenever the
remaining cell count cannot cover the missing `Broken` cells plus the
minimum separators.  This is the law claim C3 states, true of the
idealised model but not of the release program (see
`c3_wrap_counterexample`). -/
theorem feasiblePush_capacity_reject_exact (input : List (Option SpringState))
    (target : List Nat) (q : List SpringState) (h1 : q.length < input.length)
    (h2 : missing_broken (broken_groups q) target +
      missingOperational target (broken_groups q) > input.length - q.length) :
    feasiblePush input target q = false := by
  simp only [feasiblePush]
  rw [if_neg (show ¬ q.length = input.length by omega)]
  by_cases h3 : (broken_groups q).length > target.length
  · rw [if_pos h3]
  · rw [if_neg h3, if_pos h2]

/-- Counterexample for claim C3 as stated: on the record with 100 unknown
cells and the parseable target `[2 ^ 64 - 1, 1]`, at the strict prefix
`#`, the claim's exact condition holds (the 99 remaining cells cannot
supply the `2 ^ 64 - 1` still-missing `Broken` cells), so the claim
demands rejection — but the release-build predicate computes the wrapped
target sum `0`, hence `abs_diff(1, 0) = 1 ≤ 99`, passes the capacity
check and pushes the prefix (a debug build panics in the overflowing sum
instead). -/
theorem c3_wrap_counterexample :
    ([SpringState.broken] : List SpringState).length <
        (List.replicate 100 (none : Option SpringState)).length ∧
      missing_broken (broken_groups [SpringState.broken]) [2 ^ 64 - 1, 1] +
        missingOperational [2 ^ 64 - 1, 1] (broken_groups [SpringState.broken]) >
          (List.replicate 100 (none : Option SpringState)).length -
            ([SpringState.broken] : List SpringState).length ∧
      feasiblePushRelease (List.replicate 100 (none : Option SpringState))
        [2 ^ 64 - 1, 1] [SpringState.broken] = true := by
  refine ⟨by decide, by decide, by decide⟩

/-- Claim C3 as amended: for every partial prefix strictly shorter than
the record, the release-build feasibility predicate rejects (does not
push) the prefix whenever the still-missing `Broken` count *as the
release build computes it* — `abs_diff` of the 64-bit wrapping sums, plus
the minimum `Operational` separators, the addition again taken modulo
`2 ^ 64` — exceeds the number of remaining undecided cells. -/
theorem c3_capacity_reject_release (input : List (Option SpringState))
    (target : List Nat) (q : List SpringState) (h1 : q.length < input.length)
    (h2 : (missing_broken_release (broken_groups q) target +
      missingOperational target (broken_groups q)) % 2 ^ 64 >
        input.length - q.length) :
    feasiblePushRelease input target q = false := by
  simp only [feasiblePushRelease]
  rw [if_neg (show ¬ q.length = input.length by omega)]
  by_cases h3 : (broken_groups q).length > target.length
  · rw [if_pos h3]
  · rw [if_neg h3, if_pos h2]

/-- Witness for claim C3 at the concrete prefix `#` of record `?? 2,2`,
where no wrapping occurs and the release predicate rejects. -/
theorem c3_capacity_reject_release_witness :
    ([SpringState.broken] : List SpringState).length <
        ([none, none] : List (Option SpringState)).length ∧
      (missing_broken_release (broken_groups [SpringState.broken]) [2, 2] +
        missingOperational [2, 2] (broken_groups [SpringState.broken])) % 2 ^ 64 >
          ([none, none] : List (Option SpringState)).length -
            ([SpringState.broken] : List SpringState).length ∧
      feasiblePushRelease [none, none] [2, 2] [SpringState.broken] = false :=
  ⟨by decide, by decide,
    c3_capacity_reject_release [none, none] [2, 2] [SpringState.broken] (by decide)
      (by decide)⟩

/-- Claim C4: the six concrete scenario records have solution counts
1, 4, 1, 1, 4 and 10 (in particular `?###???????? 3,2,1` has 10), and the
six counts sum to 21. -/
theorem c4_concrete_scenarios :
    Line.solutions scenario1 = 1 ∧ Line.solutions scenario2 = 4 ∧
    Line.solutions scenario3 = 1 ∧ Line.solutions scenario4 = 1 ∧
    Line.solutions scenario5 = 4 ∧ Line.solutions scenario6 = 10 ∧
    Line.solutions scenario1 + Line.solutions scenario2 +
      Line.solutions scenario3 + Line.solutions scenario4 +
      Line.solutions scenario5 + Line.solutions scenario6 = 21 := by
  decide

/-- Claim C5: unfolding a record of length `L` with `g` target groups
yields the five copies of the cell sequence joined by single unknown
cells (length `5 L + 4`) and the target list concatenated five times
(`5 g` groups); `unfold` is a pure function of the record, so the original
is unchanged. -/
theorem c5_unfold_laws (l : Line) :
    (l.unfold).states =
      l.states ++ [none] ++ l.states ++ [none] ++ l.states ++ [none] ++
        l.states ++ [none] ++ l.states ∧
    (l.unfold).states.length = 5 * l.states.length + 4 ∧
    (l.unfold).broken_groups =
      l.broken_groups ++ l.broken_groups ++ l.broken_groups ++
        l.broken_groups ++ l.broken_groups ∧
    (l.unfold).broken_groups.length = 5 * l.broken_groups.length := by
  have hs : (l.unfold).states =
      l.states ++ [none] ++ l.states ++ [none] ++ l.states ++ [none] ++
        l.states ++ [none] ++ l.states := by
    show ((List.replicate 5 l.states).intersperse [none]).flatten = _
    simp [List.replicate, List.intersperse]
  have hg : (l.unfold).broken_groups =
      l.broken_groups ++ l.broken_groups ++ l.broken_groups ++
        l.broken_groups ++ l.broken_groups := by
    show (List.replicate 5 l.broken_groups).flatten = _
    simp [List.replicate]
  refine ⟨hs, ?_, hg, ?_⟩
  · rw [hs]
    simp only [List.length_append, List.length_singleton]
    omega
  · rw [hg]
    simp only [List.length_append]
    omega

/-- Claim C6: for every record the backtracking enumerator terminates:
starting from the stack holding the single empty prefix, finitely many
pop/extend transitions reach the empty stack. -/
theorem c6_enumeration_terminates (input : List (Option SpringState))
    (target : List Nat) :
    ∃ k, (iterStep input target)^[k] [[]] = [] :=
  iterStep_reaches_nil input target [[]]

/-- Counterexample for claim C7 as stated: the single-line input whose one
run-length token is the base-10 numeral `18446744073709551616` (that is,
`2 ^ 64`) makes the parser fail (usize overflow), although no line is
malformed in the claim's sense (the space is present, there is no bad
pattern character, and the token is a base-10 integer). -/
theorem c7_overflow_counterexample :
    isErrB (inputFromStr overflowLineChars) = true ∧
    (linesOf overflowLineChars).all (fun l => !claimMalformedB l) = true := by
  decide

/-- Claim C7 as amended: parsing the whole input errors exactly when some
line is malformed, where a malformed run-length token is one rejected by
64-bit `usize` parsing (optionally `'+'`-signed digit string with value
below `2 ^ 64`); and on success every line yields a record (no partial
result). -/
theorem c7_error_iff_malformed (s : List Char) :
    (isErrB (inputFromStr s) = (linesOf s).any malformedLineB) ∧
    (∀ inp : Input, inputFromStr s = Except.ok inp →
      inp.lines.length = (linesOf s).length) := by
  refine ⟨inputFromStr_isErr s, ?_⟩
  intro inp h
  unfold inputFromStr at h
  cases hc : collectE lineFromStr (linesOf s) with
  | error e =>
      rw [hc] at h
      exact Except.noConfusion h
  | ok ls =>
      rw [hc] at h
      dsimp only at h
      injection h with h'
      rw [← h']
      exact collectE_ok_length lineFromStr (linesOf s) ls hc

/-- Witness for claim C7 at the concrete input `. 1`. -/
theorem c7_error_iff_malformed_witness :
    (⟨[⟨[some SpringState.operational], [1]⟩]⟩ : Input).lines.length =
      (linesOf ['.', ' ', '1']).length :=
  (c7_error_iff_malformed ['.', ' ', '1']).2
    ⟨[⟨[some SpringState.operational], [1]⟩]⟩ rfl

/-- Counterexample for claim C8 as stated: on the record `?? 1` the
iterator emits the completion resolving the first unknown cell to `Broken`
(`#.`) before the one resolving it to `Operational` (`.#`), and the
claimed `Operational`-first order fails on that emitted pair. -/
theorem c8_emission_order_counterexample :
    runEnum [none, none] [1] =
      [[SpringState.broken, SpringState.operational],
        [SpringState.operational, SpringState.broken]] ∧
    ascLexB [SpringState.broken, SpringState.operational]
      [SpringState.operational, SpringState.broken] = false := by
  decide

/-- Claim C8 as amended: the extensions are pushed `Operational` first and
`Broken` second onto the LIFO stack, so among emitted completions that
first differ at some position — necessarily an `Unknown` cell, since every
emitted completion agrees with the record's resolved cells — the one
resolving it to `Broken` is emitted before the one resolving it to
`Operational`. -/
theorem c8_broken_before_operational (input : List (Option SpringState))
    (target : List Nat) :
    (runEnum input target).Pairwise (fun a b => descLexB a b = true) ∧
    ∀ r ∈ runEnum input target, ∀ (i : Nat) (st : SpringState),
      input[i]? = some (some st) → r[i]? = some st := by
  by_cases h : input = []
  · subst h
    rw [runEnum_nil]
    refine ⟨List.pairwise_singleton _ _, ?_⟩
    intro r hr i st hst
    simp at hst
  · rw [runEnum_eq_filter input target h]
    refine ⟨?_, ?_⟩
    · exact List.Pairwise.sublist (List.filter_sublist _) (resolutions_pairwise input)
    · intro r hr i st hst
      rw [List.mem_filter] at hr
      exact mem_resolutions_agrees input r hr.1 i st hst

/-- Witness for claim C8 at the concrete record `# 1`. -/
theorem c8_broken_before_operational_witness :
    ([SpringState.broken] : List SpringState)[0]? = some SpringState.broken :=
  (c8_broken_before_operational [some SpringState.broken] [1]).2
    [SpringState.broken] (by decide) 0 SpringState.broken (by decide)

/-- Counterexample for claim C9 as stated: the parser accepts the line
`# 0` and produces the target list `[0]`, which contains an element that
is not positive. -/
theorem c9_zero_counterexample :
    lineFromStr ['#', ' ', '0'] = Except.ok ⟨[some SpringState.broken], [0]⟩ ∧
    ¬ (∀ x ∈ ([0] : List Nat), 0 < x) :=
  ⟨rfl, by decide⟩

/-- Claim C9 as amended: every element of the target run-length list of an
accepted line is a natural number below `2 ^ 64`; zero is accepted. -/
theorem c9_groups_bounded (s : List Char) (l : Line)
    (h : lineFromStr s = Except.ok l) :
    ∀ x ∈ l.broken_groups, x < 2 ^ 64 := by
  unfold lineFromStr at h
  cases hsp : splitOnce ' ' s with
  | none =>
      rw [hsp] at h
      exact Except.noConfusion h
  | some ab =>
      obtain ⟨a, b⟩ := ab
      rw [hsp] at h
      dsimp only at h
      cases hs : collectE parseStateE a with
      | error e =>
          rw [hs] at h
          exact Except.noConfusion h
      | ok sts =>
          rw [hs] at h
          dsimp only at h
          cases hg : collectE parseGroupE (b.splitOn ',') with
          | error e =>
              rw [hg] at h
              exact Except.noConfusion h
          | ok gs =>
              rw [hg] at h
              dsimp only at h
              injection h with h'
              intro x hx
              rw [← h'] at hx
              rcases collectE_ok_mem parseGroupE (b.splitOn ',') gs hg x hx with
                ⟨tk, _, htk⟩
              exact parseGroupE_ok_lt tk x htk

/-- Witness for claim C9 at the concrete line `# 0` and its element `0`. -/
theorem c9_groups_bounded_witness :
    lineFromStr ['#', ' ', '0'] = Except.ok ⟨[some SpringState.broken], [0]⟩ ∧
      (0 : Nat) < 2 ^ 64 :=
  ⟨rfl, c9_groups_bounded ['#', ' ', '0'] ⟨[some SpringState.broken], [0]⟩ rfl 0
    (by decide)⟩

/-- Claim C10: on every prefix the iterator can pass to it (length at most
the record length), `maybe_backtrack` is total and panic-free: neither
`usize` subtraction underflows and the slice of the target list is in
bounds, because the full-length case returns first and prefixes with more
candidate groups than target groups are rejected earlier. -/
theorem c10_no_panic (input : List (Option SpringState)) (target : List Nat)
    (cand : List SpringState) (h : cand.length ≤ input.length) :
    maybeBacktrackChecked input target cand =
      some (feasiblePush input target cand) := by
  simp only [maybeBacktrackChecked, feasiblePush]
  by_cases h1 : cand.length = input.length
  · simp [h1]
  · rw [if_neg h1, if_neg h1]
    by_cases h2 : (broken_groups cand).length > target.length
    · rw [if_pos h2, if_pos h2]
    · rw [if_neg h2, if_neg h2]
      have hs1 : checkedSub input.length cand.length =
          some (input.length - cand.length) := by
        unfold checkedSub
        rw [if_pos h]
      have hs2 : checkedSub target.length (broken_groups cand).length =
          some (target.length - (broken_groups cand).length) := by
        unfold checkedSub
        rw [if_pos (by omega)]
      rw [hs1, hs2]
      dsimp only
      have h4 : (candClosed cand).length ≤ target.length := by
        have hd : (candClosed cand).length ≤ (broken_groups cand).length := by
          unfold candClosed
          split_ifs
          · rw [List.length_dropLast]
            omega
          · exact le_rfl
        omega
      by_cases h3 : missing_broken (broken_groups cand) target +
          missingOperational target (broken_groups cand) >
            input.length - cand.length
      · have h3u : missing_broken (broken_groups cand) target +
            (if target.length - (broken_groups cand).length ≠ 0 then
              target.length - (broken_groups cand).length - 1 else 0) >
              input.length - cand.length := by
          unfold missingOperational at h3
          exact h3
        rw [if_pos h3, if_pos h3u]
      · have h3u : ¬ (missing_broken (broken_groups cand) target +
            (if target.length - (broken_groups cand).length ≠ 0 then
              target.length - (broken_groups cand).length - 1 else 0) >
              input.length - cand.length) := by
          unfold missingOperational at h3
          exact h3
        rw [if_neg h3, if_neg h3u, if_pos h4]

/-- Witness for claim C10 at the concrete prefix `#` of record `?? 1`. -/
theorem c10_no_panic_witness :
    ([SpringState.broken] : List SpringState).length ≤
        ([none, none] : List (Option SpringState)).length ∧
      maybeBacktrackChecked [none, none] [1] [SpringState.broken] =
        some (feasiblePush [none, none] [1] [SpringState.broken]) :=
  ⟨by decide, c10_no_panic [none, none] [1] [SpringState.broken] (by decide)⟩
